import Mathlib

/-!
Verification of the flatdata serialization runtime against its specification.

The repository fragment contains the error type (`error.rs`) and the
`coappearances` test module (schema constants, struct/archive declarations and
a hand-written `GraphBuilder`).  The bit codec, `ExternalVector`,
`MultiVector` and the resource-storage contract are part of the runtime that
is not included in the fragment; they are modelled from the specification
text, as indicated on each definition.
-/

namespace Flatdata

/-! ### Bit codec -/

/-- Modelled from the spec: number of bytes in the minimal run covering
`[bit_offset, bit_offset + bit_width)` where `shift = bit_offset % 8`
(spec 4.1, missing source file: the bit-codec module of flatdata-rs). -/
def numBytes (shift width : Nat) : Nat := (shift + width + 7) / 8

/-- Modelled from the spec: little-endian accumulator over a run of bytes
(spec 4.1: "reads the minimal run of bytes ... into a little-endian
accumulator"). -/
def readRunLE : List Nat → Nat
  | [] => 0
  | b :: rest => b + 256 * readRunLE rest

/-- Modelled from the spec: split an accumulator value back into `n`
little-endian bytes ("write the bytes back", spec 4.1). -/
def bytesOfRunLE : Nat → Nat → List Nat
  | 0, _ => []
  | n + 1, x => x % 256 :: bytesOfRunLE n (x / 256)

/-- Modelled from the spec: unsigned read of a `width`-bit field at bit
position `off` (spec 4.1: compute `byte_offset = bit_offset / 8`,
`shift = bit_offset % 8`, accumulate the byte run, shift right by `shift`,
mask to `bit_width` bits). -/
def readBits (buf : List Nat) (off width : Nat) : Nat :=
  let byteOff := off / 8
  let shift := off % 8
  let run := readRunLE ((buf.drop byteOff).take (numBytes shift width))
  (run >>> shift) &&& (2 ^ width - 1)

/-- Modelled from the spec: sign extension of a `width`-bit pattern
(spec 4.1: "sign-extends if `signed`"). -/
def signExtend (x width : Nat) : Int :=
  if x.testBit (width - 1) then (x : Int) - 2 ^ width else (x : Int)

/-- Modelled from the spec: decode a `width`-bit pattern under the chosen
signedness. -/
def decodeValue (x width : Nat) (signed : Bool) : Int :=
  if signed then signExtend x width else (x : Int)

/-- Modelled from the spec: `read(buffer, bit_offset, bit_width, signed)`
(spec 4.1). -/
def readValue (buf : List Nat) (off width : Nat) (signed : Bool) : Int :=
  decodeValue (readBits buf off width) width signed

/-- Modelled from the spec: `write(buffer, bit_offset, bit_width, value)`
performs a read-modify-write of the byte run: clear the target bits via the
complement mask, OR in the shifted masked value, write the bytes back
(spec 4.1).  A negative value is stored as its two's complement pattern. -/
def writeBits (buf : List Nat) (off width : Nat) (v : Int) : List Nat :=
  let byteOff := off / 8
  let shift := off % 8
  let n := numBytes shift width
  let run := readRunLE ((buf.drop byteOff).take n)
  let mask := (2 ^ width - 1) <<< shift
  let cmask := (2 ^ (8 * n) - 1) ^^^ mask
  let vm := (v % ((2 : Int) ^ width)).toNat
  let run2 := (run &&& cmask) ||| (vm <<< shift)
  buf.take byteOff ++ bytesOfRunLE n run2 ++ buf.drop (byteOff + n)

/-- The bit of a byte buffer at absolute bit position `p` (LSB-first within
each byte, spec 6: "little-endian bit packing ... LSB-first"). -/
def bufBit (buf : List Nat) (p : Nat) : Bool :=
  Nat.testBit (buf.getD (p / 8) 0) (p % 8)

/-- Every entry of the buffer is a byte value. -/
def IsBytes (buf : List Nat) : Prop := ∀ b ∈ buf, b < 256

instance (buf : List Nat) : Decidable (IsBytes buf) := by
  unfold IsBytes
  infer_instance

/-- Representability of a value in a `width`-bit field under the chosen
signedness (spec 8: "every `v` representable in `width` bits"). -/
def Representable (w : Nat) (signed : Bool) (v : Int) : Prop :=
  if signed then -(2 : Int) ^ (w - 1) ≤ v ∧ v < 2 ^ (w - 1) else 0 ≤ v ∧ v < 2 ^ w

instance (w : Nat) (signed : Bool) (v : Int) : Decidable (Representable w signed v) := by
  unfold Representable
  infer_instance

/-! ### Error type (from `src/flatdata-rs/lib/src/error.rs`) -/

/-- Modelled from the spec: the kind of a std io error; only the kinds the
runtime distinguishes are named (std::io is not part of the fragment). -/
inductive IoErrorKind where
  | notFound
  | alreadyExists
  | otherErr
deriving DecidableEq

/-- Modelled from the spec: a std io error, with its kind and message
(std::io is not part of the fragment). -/
structure IoError where
  kind : IoErrorKind
  message : String
deriving DecidableEq

/-- Modelled from the spec: a std str Utf8Error with its `valid_up_to` and
`error_len` data (std::str is not part of the fragment). -/
structure Utf8DecodeError where
  valid_up_to : Nat
  error_len : Option Nat
deriving DecidableEq

/-- The error enum `ResourceStorageError` of `src/flatdata-rs/lib/src/error.rs`
(lines 7-49), constructor for constructor, including the hidden
`__Nonexhaustive` variant. -/
inductive ResourceStorageError where
  | Io : IoError → String → ResourceStorageError
  | Utf8Error : Utf8DecodeError → ResourceStorageError
  | MissingSchema : String → ResourceStorageError
  | MissingData : ResourceStorageError
  | WrongSignature : (resource_name : String) → (diff : String) → ResourceStorageError
  | UnexpectedDataSize : ResourceStorageError
  | TooBig : (resource_name : String) → (size : Nat) → ResourceStorageError
  | Missing : ResourceStorageError
  | __Nonexhaustive : ResourceStorageError
deriving DecidableEq

/-- `ResourceStorageError::from_io_error` (error.rs lines 55-57). -/
def ResourceStorageError.from_io_error (err : IoError) (resource_name : String) :
    ResourceStorageError :=
  ResourceStorageError.Io err resource_name

/-! ### Resource storage -/

/-- Modelled from the spec: a resource is a named, schema-tagged byte blob;
the storage records a control size alongside the raw bytes (error.rs doc:
"a control header is written which, in particular, contains the final size of
the whole resource"). -/
structure Resource where
  schema : String
  size : Nat
  bytes : List Nat
deriving DecidableEq

/-- Modelled from the spec: the logical payload of a resource is the recorded
control size's worth of bytes; the trailing padding is beyond it. -/
def Resource.readData (r : Resource) : List Nat := r.bytes.take r.size

/-- Modelled from the spec: `Resource Storage` is a mapping name → Resource
(spec 3); earlier entries shadow later ones. -/
abbrev ResourceStorage : Type := List (String × Resource)

/-- Modelled from the spec: the current binding of a name. -/
def storageLookup (st : ResourceStorage) (name : String) : Option Resource :=
  st.lookup name

/-- Modelled from the spec: `exists(name)` (spec 4.3). -/
def storageHas (st : ResourceStorage) (name : String) : Bool :=
  (st.lookup name).isSome

/-- Modelled from the spec: `write(name, schema, bytes)` persists schema and
bytes together under the name, recording the logical size and appending the
(at least 8 byte) trailing padding every on-storage buffer carries
(spec 4.3 and 6). -/
def storageWrite (st : ResourceStorage) (name schema : String) (data : List Nat) :
    ResourceStorage :=
  (name, ⟨schema, data.length, data ++ List.replicate 8 0⟩) :: st

/-! ### ExternalVector and ArrayView -/

/-- A single field update performed through a mutable struct view: bit offset
and width within the element, signedness, and the value written (the
schema-generated setters delegate to the bit codec, spec 4.2). -/
structure FieldWrite where
  off : Nat
  width : Nat
  signed : Bool
  value : Int

/-- Modelled from the spec: `ExternalVector` construction state: bound element
byte size, accumulated bytes, element count (spec 4.5). -/
structure ExternalVector where
  size : Nat
  data : List Nat
  len : Nat

def ExternalVector.create (size : Nat) : ExternalVector := ⟨size, [], 0⟩

/-- Modelled from the spec: `grow()` appends one zero-initialized element of
the declared byte size and increments the length (spec 4.5). -/
def ExternalVector.grow (v : ExternalVector) : ExternalVector :=
  { v with data := v.data ++ List.replicate v.size 0, len := v.len + 1 }

/-- A field write through the mutable view returned by the last `grow()`: the
view's setter delegates to the bit codec at the element's position
(spec 4.2 and 4.5). -/
def ExternalVector.setLast (v : ExternalVector) (fw : FieldWrite) : ExternalVector :=
  { v with data := writeBits v.data (8 * ((v.len - 1) * v.size) + fw.off) fw.width fw.value }

def ExternalVector.fill (v : ExternalVector) (s : List FieldWrite) : ExternalVector :=
  s.foldl ExternalVector.setLast v

def ExternalVector.pushElem (v : ExternalVector) (s : List FieldWrite) : ExternalVector :=
  ExternalVector.fill v.grow s

/-- Build an external vector: one `grow()` per script, each followed by the
script's field writes into the returned view. -/
def ExternalVector.build (size : Nat) (scripts : List (List FieldWrite)) : ExternalVector :=
  scripts.foldl ExternalVector.pushElem (ExternalVector.create size)

/-- Modelled from the spec: `close()` writes the accumulated bytes (the
storage layer records the logical size and appends the trailing pad) exactly
once under the bound resource name and schema (spec 4.5). -/
def ExternalVector.close (v : ExternalVector) (st : ResourceStorage)
    (name schema : String) : ResourceStorage :=
  storageWrite st name schema v.data

/-- Modelled from the spec: `ArrayView` over one resource's bytes with a
fixed element byte size; `len() = byte_length / element_size` (spec 4.4). -/
structure ArrayView where
  size : Nat
  data : List Nat

def ArrayView.len (a : ArrayView) : Nat := a.data.length / a.size

/-- `at(i)` followed by a field accessor: reads the field through the bit
codec at byte offset `i * size` (spec 4.2 and 4.4). -/
def ArrayView.getField (a : ArrayView) (i off w : Nat) (signed : Bool) : Int :=
  readValue a.data (8 * (i * a.size) + off) w signed

/-! ### MultiVector -/

/-- Modelled from the spec: `MultiVector` construction state: payload buffer,
index entries so far (pre-seeded with offset 0), logical position counter
(spec 4.6). -/
structure MultiVector where
  payload : List Nat
  index : List Nat
  positions : Nat
deriving DecidableEq

def MultiVector.create : MultiVector := ⟨[], [0], 0⟩

/-- Modelled from the spec: `add_<Variant>()` appends one discriminant byte
(the variant's schema-declared index) followed by the variant's declared byte
size of zeroed storage (spec 4.6). -/
def MultiVector.addItem (m : MultiVector) (tag size : Nat) : MultiVector :=
  { m with payload := m.payload ++ tag :: List.replicate size 0 }

/-- Modelled from the spec: `finish_item()` appends the current payload buffer
length as the next index entry and increments the position counter; it fails
with `TooBig{resource_name, size}` when the recorded offset would exceed the
index field's declared bit width (spec 4.6). -/
def MultiVector.finishItem (indexWidth : Nat) (resource_name : String)
    (m : MultiVector) : Except ResourceStorageError MultiVector :=
  if 2 ^ indexWidth - 1 < m.payload.length then
    Except.error (ResourceStorageError.TooBig resource_name m.payload.length)
  else
    Except.ok { m with index := m.index ++ [m.payload.length],
                       positions := m.positions + 1 }

def MultiVector.addItems (m : MultiVector) (items : List (Nat × Nat)) : MultiVector :=
  items.foldl (fun a it => a.addItem it.1 it.2) m

def MultiVector.buildPos (indexWidth : Nat) (resource_name : String)
    (m : MultiVector) (items : List (Nat × Nat)) :
    Except ResourceStorageError MultiVector :=
  (m.addItems items).finishItem indexWidth resource_name

/-- Build a MultiVector: for each logical position, add the position's items
(given as tag and byte-size pairs) then call `finish_item()`. -/
def MultiVector.build (indexWidth : Nat) (resource_name : String)
    (scripts : List (List (Nat × Nat))) : Except ResourceStorageError MultiVector :=
  scripts.foldlM (MultiVector.buildPos indexWidth resource_name) MultiVector.create

/-- The eight error kinds listed by spec 7, as a predicate on error values. -/
def IsListedKind (e : ResourceStorageError) : Prop :=
  (∃ err name, e = ResourceStorageError.Io err name) ∨
  (∃ u, e = ResourceStorageError.Utf8Error u) ∨
  (∃ name, e = ResourceStorageError.MissingSchema name) ∨
  e = ResourceStorageError.MissingData ∨
  (∃ name diff, e = ResourceStorageError.WrongSignature name diff) ∨
  e = ResourceStorageError.UnexpectedDataSize ∨
  (∃ name size, e = ResourceStorageError.TooBig name size) ∨
  e = ResourceStorageError.Missing

/-- Total encoded byte length of one logical position's items: one tag byte
plus the variant's byte size per item (spec 4.6). -/
def encodedLength (items : List (Nat × Nat)) : Nat :=
  (items.map (fun it => 1 + it.2)).sum

/-- Cumulative payload length contributed by a list of position scripts. -/
def totalLength (scripts : List (List (Nat × Nat))) : Nat :=
  (scripts.map encodedLength).sum

/-- Well-formedness of the field writes of one element script: widths in
1..64, fields inside the element's `8 * S` bits, values representable. -/
def ScriptOK (S : Nat) (s : List FieldWrite) : Prop :=
  ∀ fw ∈ s, 1 ≤ fw.width ∧ fw.width ≤ 64 ∧ fw.off + fw.width ≤ 8 * S ∧
    Representable fw.width fw.signed fw.value

/-- Two field writes touch disjoint bit ranges. -/
def rangesDisjoint (f g : FieldWrite) : Prop :=
  f.off + f.width ≤ g.off ∨ g.off + g.width ≤ f.off

/-- The fields written within one element script are pairwise disjoint
(distinct struct fields never overlap). -/
def ScriptDisjoint (s : List FieldWrite) : Prop := s.Pairwise rangesDisjoint

instance (S : Nat) (s : List FieldWrite) : Decidable (ScriptOK S s) := by
  unfold ScriptOK
  infer_instance

instance (f g : FieldWrite) : Decidable (rangesDisjoint f g) := by
  unfold rangesDisjoint
  infer_instance

instance (s : List FieldWrite) : Decidable (ScriptDisjoint s) := by
  unfold ScriptDisjoint
  infer_instance

/-- The element byte-size well-formedness of an external vector state. -/
def EVOK (S : Nat) (v : ExternalVector) : Prop :=
  v.size = S ∧ v.data.length = v.len * S ∧ IsBytes v.data

/-- The stored two's complement pattern of a field value. -/
def encodeValue (w : Nat) (v : Int) : Nat := (v % ((2 : Int) ^ w)).toNat

/-- The per-element field contents of an external vector buffer: for each
element index and each field write of its script, the bits of the field range
hold the encoded value. -/
def GoodData (S : Nat) (scripts : List (List FieldWrite)) (data : List Nat) : Prop :=
  ∀ i, (hi : i < scripts.length) → ∀ fw ∈ scripts.get ⟨i, hi⟩, ∀ j, j < fw.width →
    bufBit data (8 * (i * S) + fw.off + j) = (encodeValue fw.width fw.value).testBit j

end Flatdata

/-! ### The coappearances test module (from `src/tests/coappearances/mod.rs`) -/

namespace coappearances

namespace schema

namespace resources

def META : String :=
  "namespace coappearances \x7b /**\n * Meta information about the book.\n */\nstruct Meta \x7b\n    title_ref : u32 : 32;\n    author_ref : u32 : 32;\n\x7d \x7d\nnamespace coappearances \x7b @explicit_reference( Meta.title_ref, strings )\n    @explicit_reference( Meta.author_ref, strings )\n    meta : Meta; \x7d"

def VERTICES : String :=
  "namespace coappearances \x7b /**\n * A character.\n */\nstruct Character \x7b\n    name_ref : u32 : 32;\n\x7d \x7d\nnamespace coappearances \x7b @explicit_reference( Character.name_ref, strings )\n    vertices : vector< Character >; \x7d"

def EDGES : String :=
  "namespace coappearances \x7b /**\n * An appearance of two characters in the same scene.\n *\n * count - multiplicity of the coappearance.\n * first_chapter_ref - a reference to the first chapter in which characters appear. How to get the\n * full range of chapters is described in `coappearances.cpp:read`.\n */\nstruct Coappearance \x7b\n    a_ref : u32 : 16;\n    b_ref : u32 : 16;\n    count : u32 : 16;\n    first_chapter_ref: u32 : 16;\n\x7d \x7d\nnamespace coappearances \x7b @explicit_reference( Coappearance.a_ref, vertices )\n    @explicit_reference( Coappearance.b_ref, vertices )\n    @explicit_reference( Coappearance.first_chapter_ref, chapters )\n    edges : vector< Coappearance >; \x7d"

def CHAPTERS : String :=
  "namespace coappearances \x7b /**\n * A chapter in the book.\n */\nstruct Chapter \x7b\n    major: u8 : 4;\n    minor: u8 : 7;\n\x7d \x7d\nnamespace coappearances \x7b chapters : vector< Chapter >; \x7d"

def VERTICES_DATA : String :=
  "namespace coappearances \x7b /**\n * A nickname or an alternative name of a character.\n */\nstruct Nickname \x7b\n    ref: u32 : 32;\n\x7d \x7d\nnamespace coappearances \x7b /**\n * A description of a character.\n */\nstruct Description \x7b\n    ref: u32 : 32;\n\x7d \x7d\nnamespace coappearances \x7b /**\n * A relation of a character to another one.\n */\nstruct UnaryRelation \x7b\n    kind_ref: u32 : 32;\n    to_ref: u32 : 16;\n\x7d \x7d\nnamespace coappearances \x7b /**\n * A relation of a character to two other characters.\n */\nstruct BinaryRelation \x7b\n    kind_ref: u32 : 32;\n    to_a_ref: u32 : 16;\n    to_b_ref: u32 : 16;\n\x7d \x7d\nnamespace _builtin.multivector \x7b struct IndexType32 \x7b value : u64 : 32; \x7d \x7d\nnamespace coappearances \x7b @explicit_reference( Nickname.ref, strings )\n    @explicit_reference( Description.ref, strings )\n    @explicit_reference( UnaryRelation.kind_ref, strings )\n    @explicit_reference( UnaryRelation.to_ref, vertices )\n    @explicit_reference( BinaryRelation.kind_ref, strings )\n    @explicit_reference( BinaryRelation.to_a_ref, vertices )\n    @explicit_reference( BinaryRelation.to_b_ref, vertices )\n    vertices_data: multivector< 32, Nickname, Description, UnaryRelation, BinaryRelation >; \x7d"

def VERTICES_DATA_INDEX : String :=
  "index(namespace coappearances \x7b /**\n * A nickname or an alternative name of a character.\n */\nstruct Nickname \x7b\n    ref: u32 : 32;\n\x7d \x7d\nnamespace coappearances \x7b /**\n * A description of a character.\n */\nstruct Description \x7b\n    ref: u32 : 32;\n\x7d \x7d\nnamespace coappearances \x7b /**\n * A relation of a character to another one.\n */\nstruct UnaryRelation \x7b\n    kind_ref: u32 : 32;\n    to_ref: u32 : 16;\n\x7d \x7d\nnamespace coappearances \x7b /**\n * A relation of a character to two other characters.\n */\nstruct BinaryRelation \x7b\n    kind_ref: u32 : 32;\n    to_a_ref: u32 : 16;\n    to_b_ref: u32 : 16;\n\x7d \x7d\nnamespace _builtin.multivector \x7b struct IndexType32 \x7b value : u64 : 32; \x7d \x7d\nnamespace coappearances \x7b @explicit_reference( Nickname.ref, strings )\n    @explicit_reference( Description.ref, strings )\n    @explicit_reference( UnaryRelation.kind_ref, strings )\n    @explicit_reference( UnaryRelation.to_ref, vertices )\n    @explicit_reference( BinaryRelation.kind_ref, strings )\n    @explicit_reference( BinaryRelation.to_a_ref, vertices )\n    @explicit_reference( BinaryRelation.to_b_ref, vertices )\n    vertices_data: multivector< 32, Nickname, Description, UnaryRelation, BinaryRelation >; \x7d)"

def STRINGS : String :=
  "namespace coappearances \x7b // All strings contained in the data separated by `\\0`.\n    strings: raw_data; \x7d"

def GRAPH : String :=
  "namespace coappearances \x7b /**\n * Meta information about the book.\n */\nstruct Meta \x7b\n    title_ref : u32 : 32;\n    author_ref : u32 : 32;\n\x7d \x7d\nnamespace coappearances \x7b /**\n * A character.\n */\nstruct Character \x7b\n    name_ref : u32 : 32;\n\x7d \x7d\nnamespace coappearances \x7b /**\n * An appearance of two characters in the same scene.\n *\n * count - multiplicity of the coappearance.\n * first_chapter_ref - a reference to the first chapter in which characters appear. How to get the\n * full range of chapters is described in `coappearances.cpp:read`.\n */\nstruct Coappearance \x7b\n    a_ref : u32 : 16;\n    b_ref : u32 : 16;\n    count : u32 : 16;\n    first_chapter_ref: u32 : 16;\n\x7d \x7d\nnamespace coappearances \x7b /**\n * A nickname or an alternative name of a character.\n */\nstruct Nickname \x7b\n    ref: u32 : 32;\n\x7d \x7d\nnamespace coappearances \x7b /**\n * A description of a character.\n */\nstruct Description \x7b\n    ref: u32 : 32;\n\x7d \x7d\nnamespace coappearances \x7b /**\n * A relation of a character to another one.\n */\nstruct UnaryRelation \x7b\n    kind_ref: u32 : 32;\n    to_ref: u32 : 16;\n\x7d \x7d\nnamespace coappearances \x7b /**\n * A relation of a character to two other characters.\n */\nstruct BinaryRelation \x7b\n    kind_ref: u32 : 32;\n    to_a_ref: u32 : 16;\n    to_b_ref: u32 : 16;\n\x7d \x7d\nnamespace _builtin.multivector \x7b struct IndexType32 \x7b value : u64 : 32; \x7d \x7d\nnamespace coappearances \x7b /**\n * A chapter in the book.\n */\nstruct Chapter \x7b\n    major: u8 : 4;\n    minor: u8 : 7;\n\x7d \x7d\nnamespace coappearances \x7b @bound_implicitly( characters: vertices, vertices_data )\narchive Graph \x7b\n    @explicit_reference( Meta.title_ref, strings )\n    @explicit_reference( Meta.author_ref, strings )\n    meta : Meta;\n\n    @explicit_reference( Character.name_ref, strings )\n    vertices : vector< Character >;\n\n    @explicit_reference( Coappearance.a_ref, vertices )\n    @explicit_reference( Coappearance.b_ref, vertices )\n    @explicit_reference( Coappearance.first_chapter_ref, chapters )\n    edges : vector< Coappearance >;\n\n    @explicit_reference( Nickname.ref, strings )\n    @explicit_reference( Description.ref, strings )\n    @explicit_reference( UnaryRelation.kind_ref, strings )\n    @explicit_reference( UnaryRelation.to_ref, vertices )\n    @explicit_reference( BinaryRelation.kind_ref, strings )\n    @explicit_reference( BinaryRelation.to_a_ref, vertices )\n    @explicit_reference( BinaryRelation.to_b_ref, vertices )\n    vertices_data: multivector< 32, Nickname, Description, UnaryRelation, BinaryRelation >;\n\n    chapters : vector< Chapter >;\n\n    // All strings contained in the data separated by `\\0`.\n    strings: raw_data;\n\x7d \x7d"

end resources

end schema

/-- The variants of the `vertices_data` multivector, in the order declared by
`define_variadic_struct!(VerticesData, ...)` (mod.rs lines 308-312). -/
inductive VerticesDataVariant where
  | Nickname
  | Description
  | UnaryRelation
  | BinaryRelation
deriving DecidableEq

/-- Variant tags as declared by `define_variadic_struct!` (mod.rs
lines 308-312). -/
def VerticesDataVariant.tag : VerticesDataVariant → Nat
  | .Nickname => 0
  | .Description => 1
  | .UnaryRelation => 2
  | .BinaryRelation => 3

/-- Variant byte sizes from the corresponding `define_struct!` declarations
(mod.rs lines 273-306: Nickname 4, Description 4, UnaryRelation 6,
BinaryRelation 8). -/
def VerticesDataVariant.byteSize : VerticesDataVariant → Nat
  | .Nickname => 4
  | .Description => 4
  | .UnaryRelation => 6
  | .BinaryRelation => 8

/-- `add_<variant>` on the `vertices_data` item builder: appends the tag byte
and the variant's zeroed payload. -/
def addVariant (m : Flatdata.MultiVector) (v : VerticesDataVariant) :
    Flatdata.MultiVector :=
  m.addItem v.tag v.byteSize

/-- The index struct `IndexType32` declared by `define_index!` (mod.rs
lines 314-320): 4 bytes, 32-bit value field. -/
def IndexType32.bitWidth : Nat := 32

def IndexType32.SIZE_IN_BYTES : Nat := 4

/-- A multivector member binding of `define_archive!`. -/
structure MultivectorMember where
  name : String
  schemaText : String
  index_name : String
  index_schema : String

/-- The `vertices_data` member of `define_archive!(Graph, ...)` (mod.rs
lines 330-332): payload resource `vertices_data` with schema `VERTICES_DATA`,
bound index member `vertices_data_index` with schema `VERTICES_DATA_INDEX`. -/
def Graph.vertices_data_member : MultivectorMember :=
  ⟨"vertices_data", schema.resources.VERTICES_DATA,
    "vertices_data_index", schema.resources.VERTICES_DATA_INDEX⟩

/-- `GraphBuilder` (mod.rs lines 339-342): holds the shared storage handle. -/
structure GraphBuilder where
  storage : Flatdata.ResourceStorage

def GraphBuilder.NAME : String := "Graph"

def GraphBuilder.SCHEMA : String := schema.resources.GRAPH

/-- `GraphBuilder::new` (mod.rs lines 416-441): if the signature resource
`"Graph.archive"` exists, fail with an AlreadyExists io error wrapped by
`from_io_error` without touching the storage; otherwise write the empty
signature resource under the full archive schema.  The pair carries the
result and the final state of the shared storage. -/
def GraphBuilder.new (storage : Flatdata.ResourceStorage) :
    Except Flatdata.ResourceStorageError GraphBuilder × Flatdata.ResourceStorage :=
  let signature_name := GraphBuilder.NAME ++ ".archive"
  if Flatdata.storageHas storage signature_name then
    (Except.error (Flatdata.ResourceStorageError.from_io_error
        { kind := Flatdata.IoErrorKind.alreadyExists, message := signature_name }
        signature_name),
      storage)
  else
    let st2 := Flatdata.storageWrite storage signature_name GraphBuilder.SCHEMA []
    (Except.ok { storage := st2 }, st2)

end coappearances

namespace Flatdata

/-! ### Bit codec: auxiliary lemmas -/

theorem readRunLE_lt (l : List Nat) (hb : IsBytes l) :
    readRunLE l < 2 ^ (8 * l.length) := by
  induction l with
  | nil => simp [readRunLE]
  | cons b r ih =>
    have hb0 : b < 256 := hb b (List.mem_cons_self _ _)
    have hr : readRunLE r < 2 ^ (8 * r.length) :=
      ih (fun x hx => hb x (List.mem_cons_of_mem _ hx))
    have hpow : 2 ^ (8 * (b :: r).length) = 256 * 2 ^ (8 * r.length) := by
      rw [List.length_cons]
      have h8 : 8 * (r.length + 1) = 8 * r.length + 8 := by ring
      rw [h8, pow_add]
      norm_num
      ring
    rw [hpow, readRunLE]
    omega

theorem testBit_readRunLE (l : List Nat) (hb : IsBytes l) (j k : Nat) (hk : k < 8) :
    (readRunLE l).testBit (8 * j + k) = (l.getD j 0).testBit k := by
  induction l generalizing j with
  | nil => simp [readRunLE]
  | cons b r ih =>
    have hb0 : b < 256 := hb b (List.mem_cons_self _ _)
    have hbr : IsBytes r := fun x hx => hb x (List.mem_cons_of_mem _ hx)
    have hacc : readRunLE (b :: r) = 2 ^ 8 * readRunLE r + b := by
      rw [readRunLE]
      ring
    cases j with
    | zero =>
      rw [hacc, Nat.testBit_mul_pow_two_add _ hb0]
      have hlt : 8 * 0 + k < 8 := by omega
      rw [if_pos hlt]
      simp
    | succ j =>
      rw [hacc, Nat.testBit_mul_pow_two_add _ hb0]
      have hge : ¬ (8 * (j + 1) + k < 8) := by omega
      have hsub : 8 * (j + 1) + k - 8 = 8 * j + k := by omega
      simp only [hge, if_false, hsub]
      simpa using ih hbr j

theorem length_bytesOfRunLE (n x : Nat) : (bytesOfRunLE n x).length = n := by
  induction n generalizing x with
  | zero => rfl
  | succ n ih => simp [bytesOfRunLE, ih]

theorem isBytes_bytesOfRunLE (n x : Nat) : IsBytes (bytesOfRunLE n x) := by
  induction n generalizing x with
  | zero => intro b hb; simp [bytesOfRunLE] at hb
  | succ n ih =>
    intro b hb
    simp only [bytesOfRunLE, List.mem_cons] at hb
    rcases hb with h | h
    · omega
    · exact ih _ b h

theorem readRunLE_bytesOfRunLE (n x : Nat) :
    readRunLE (bytesOfRunLE n x) = x % 2 ^ (8 * n) := by
  induction n generalizing x with
  | zero =>
    simp only [bytesOfRunLE, readRunLE, Nat.mul_zero, pow_zero]
    omega
  | succ n ih =>
    rw [bytesOfRunLE, readRunLE, ih]
    have hpow : 2 ^ (8 * (n + 1)) = 256 * 2 ^ (8 * n) := by
      have h8 : 8 * (n + 1) = 8 + 8 * n := by ring
      rw [h8, pow_add]
      norm_num
    rw [hpow, Nat.mod_mul]

theorem getD_drop_take (l : List Nat) (a n j : Nat) (hj : j < n) :
    ((l.drop a).take n).getD j 0 = l.getD (a + j) 0 := by
  simp only [List.getD_eq_getElem?_getD]
  rw [List.getElem?_take_of_lt hj, List.getElem?_drop]

theorem getD_splice (a mid : List Nat) (b0 n q : Nat)
    (hb0 : b0 ≤ a.length) (hmid : mid.length = n) :
    (a.take b0 ++ (mid ++ a.drop (b0 + n))).getD q 0 =
      if q < b0 then a.getD q 0
      else if q < b0 + n then mid.getD (q - b0) 0
      else a.getD q 0 := by
  have hta : (a.take b0).length = b0 := by
    rw [List.length_take]
    omega
  simp only [List.getD_eq_getElem?_getD]
  by_cases h1 : q < b0
  · rw [List.getElem?_append_left (by omega), List.getElem?_take_of_lt h1]
    simp [h1]
  · rw [List.getElem?_append_right (by omega), hta]
    by_cases h2 : q < b0 + n
    · rw [List.getElem?_append_left (by omega)]
      simp [h1, h2]
    · rw [List.getElem?_append_right (by omega), hmid, List.getElem?_drop]
      have hq : b0 + n + (q - b0 - n) = q := by omega
      rw [hq]
      simp [h1, h2]

theorem isBytes_drop_take (l : List Nat) (a n : Nat) (hb : IsBytes l) :
    IsBytes ((l.drop a).take n) :=
  fun x hx => hb x (List.mem_of_mem_drop (List.mem_of_mem_take hx))

theorem writeBits_eq (buf : List Nat) (off w : Nat) (v : Int) :
    writeBits buf off w v =
      buf.take (off / 8) ++
        (bytesOfRunLE (numBytes (off % 8) w)
          ((readRunLE ((buf.drop (off / 8)).take (numBytes (off % 8) w)) &&&
              ((2 ^ (8 * numBytes (off % 8) w) - 1) ^^^ ((2 ^ w - 1) <<< (off % 8)))) |||
            ((v % ((2 : Int) ^ w)).toNat <<< (off % 8))) ++
          buf.drop (off / 8 + numBytes (off % 8) w)) := by
  rw [writeBits, List.append_assoc]

theorem writeBits_length (buf : List Nat) (off w : Nat) (v : Int)
    (hlen : off / 8 + numBytes (off % 8) w ≤ buf.length) :
    (writeBits buf off w v).length = buf.length := by
  rw [writeBits_eq]
  simp only [List.length_append, List.length_take, List.length_drop, length_bytesOfRunLE]
  omega

theorem isBytes_writeBits (buf : List Nat) (off w : Nat) (v : Int) (hb : IsBytes buf) :
    IsBytes (writeBits buf off w v) := by
  rw [writeBits_eq]
  intro x hx
  simp only [List.mem_append] at hx
  rcases hx with h | h | h
  · exact hb x (List.mem_of_mem_take h)
  · exact isBytes_bytesOfRunLE _ _ x h
  · exact hb x (List.mem_of_mem_drop h)

theorem bufBit_writeBits (buf : List Nat) (off w : Nat) (v : Int) (p : Nat)
    (hb : IsBytes buf) (hw : 1 ≤ w)
    (hlen : off / 8 + numBytes (off % 8) w ≤ buf.length) :
    bufBit (writeBits buf off w v) p =
      if off ≤ p ∧ p < off + w then
        ((v % ((2 : Int) ^ w)).toNat).testBit (p - off)
      else bufBit buf p := by
  have hoff : 8 * (off / 8) + off % 8 = off := Nat.div_add_mod off 8
  have hs8 : off % 8 < 8 := Nat.mod_lt _ (by norm_num)
  have hsn : off % 8 + w ≤ 8 * numBytes (off % 8) w := by
    unfold numBytes
    omega
  have hn1 : 1 ≤ numBytes (off % 8) w := by
    unfold numBytes
    omega
  unfold bufBit
  rw [writeBits_eq]
  set b0 := off / 8 with hb0
  set s := off % 8 with hs
  set n := numBytes s w with hn
  set run := readRunLE ((buf.drop b0).take n) with hrun
  set vm := (v % ((2 : Int) ^ w)).toNat with hvm
  set mask := (2 ^ w - 1) <<< s with hmask
  set cmask := (2 ^ (8 * n) - 1) ^^^ mask with hcmask
  set run2 := (run &&& cmask) ||| (vm <<< s) with hrun2
  have hvm_lt : vm < 2 ^ w := by
    rw [hvm]
    have h2 : (0 : Int) < 2 ^ w := by positivity
    have e1 : 0 ≤ v % (2 : Int) ^ w := Int.emod_nonneg v (ne_of_gt h2)
    have e2 : v % (2 : Int) ^ w < 2 ^ w := Int.emod_lt_of_pos v h2
    have hcast : ((2 : Int) ^ w) = ((2 ^ w : Nat) : Int) := by push_cast; ring
    rw [hcast] at e1 e2
    omega
  have hrun_lt : run < 2 ^ (8 * n) := by
    rw [hrun]
    have h1 := readRunLE_lt ((buf.drop b0).take n) (isBytes_drop_take buf b0 n hb)
    have h2 : ((buf.drop b0).take n).length ≤ n := by
      simp [List.length_take]
    calc readRunLE ((buf.drop b0).take n) < 2 ^ (8 * ((buf.drop b0).take n).length) := h1
      _ ≤ 2 ^ (8 * n) := Nat.pow_le_pow_right (by norm_num) (by omega)
  have hmask_lt : mask < 2 ^ (8 * n) := by
    rw [hmask, Nat.shiftLeft_eq]
    have hpos := Nat.two_pow_pos w
    have h1 : (2 ^ w - 1) * 2 ^ s < 2 ^ w * 2 ^ s :=
      (Nat.mul_lt_mul_right (Nat.two_pow_pos s)).mpr (by omega)
    have h2 : 2 ^ w * 2 ^ s = 2 ^ (w + s) := (pow_add 2 w s).symm
    have h3 : (2 : Nat) ^ (w + s) ≤ 2 ^ (8 * n) :=
      Nat.pow_le_pow_right (by norm_num) (by omega)
    omega
  have hcmask_lt : cmask < 2 ^ (8 * n) := by
    rw [hcmask]
    exact Nat.xor_lt_two_pow (by have := Nat.two_pow_pos (8 * n); omega) hmask_lt
  have hshift_lt : vm <<< s < 2 ^ (8 * n) := by
    rw [Nat.shiftLeft_eq]
    calc vm * 2 ^ s < 2 ^ w * 2 ^ s :=
          (Nat.mul_lt_mul_right (Nat.two_pow_pos s)).mpr hvm_lt
      _ = 2 ^ (w + s) := (pow_add 2 w s).symm
      _ ≤ 2 ^ (8 * n) := Nat.pow_le_pow_right (by norm_num) (by omega)
  have hrun2_lt : run2 < 2 ^ (8 * n) := by
    rw [hrun2]
    exact Nat.or_lt_two_pow (Nat.and_lt_two_pow run hcmask_lt) hshift_lt
  have hrun2_tb : ∀ i, i < 8 * n →
      run2.testBit i = if s ≤ i ∧ i < s + w then vm.testBit (i - s) else run.testBit i := by
    intro i hi
    rw [hrun2, hcmask, hmask]
    simp only [Nat.testBit_or, Nat.testBit_and, Nat.testBit_xor,
      Nat.testBit_shiftLeft, Nat.testBit_two_pow_sub_one]
    by_cases hfield : s ≤ i ∧ i < s + w
    · rw [if_pos hfield]
      have h2 : i - s < w := by omega
      simp [hfield.1, h2, hi, ge_iff_le]
    · rw [if_neg hfield]
      by_cases h1 : s ≤ i
      · have h2 : ¬ i - s < w := by omega
        have hvmb : vm.testBit (i - s) = false :=
          Nat.testBit_lt_two_pow
            (lt_of_lt_of_le hvm_lt (Nat.pow_le_pow_right (by norm_num) (by omega)))
        simp [h1, h2, hi, hvmb, ge_iff_le]
      · simp [h1, hi, ge_iff_le]
  have hmidlen : (bytesOfRunLE n run2).length = n := length_bytesOfRunLE n run2
  have hb0le : b0 ≤ buf.length := by omega
  rw [getD_splice buf (bytesOfRunLE n run2) b0 n (p / 8) hb0le hmidlen]
  have hk8 : p % 8 < 8 := Nat.mod_lt _ (by norm_num)
  have hpqk : 8 * (p / 8) + p % 8 = p := Nat.div_add_mod p 8
  by_cases hz1 : p / 8 < b0
  · have hcond : ¬ (off ≤ p ∧ p < off + w) := by omega
    rw [if_pos hz1, if_neg hcond]
  · by_cases hz2 : p / 8 < b0 + n
    · rw [if_neg hz1, if_pos hz2]
      have h1 : ((bytesOfRunLE n run2).getD (p / 8 - b0) 0).testBit (p % 8) =
          run2.testBit (8 * (p / 8 - b0) + p % 8) := by
        rw [← testBit_readRunLE (bytesOfRunLE n run2) (isBytes_bytesOfRunLE n run2) _ _ hk8,
          readRunLE_bytesOfRunLE, Nat.mod_eq_of_lt hrun2_lt]
      rw [h1]
      have hi8 : 8 * (p / 8 - b0) + p % 8 = p - 8 * b0 := by omega
      rw [hi8]
      have hilt : p - 8 * b0 < 8 * n := by omega
      rw [hrun2_tb _ hilt]
      by_cases hf : off ≤ p ∧ p < off + w
      · have hcond2 : s ≤ p - 8 * b0 ∧ p - 8 * b0 < s + w := by omega
        rw [if_pos hcond2, if_pos hf]
        have hsub : p - 8 * b0 - s = p - off := by omega
        rw [hsub]
      · have hcond2 : ¬ (s ≤ p - 8 * b0 ∧ p - 8 * b0 < s + w) := by omega
        rw [if_neg hcond2, if_neg hf, hrun]
        have hj : p - 8 * b0 = 8 * (p / 8 - b0) + p % 8 := by omega
        rw [hj, testBit_readRunLE _ (isBytes_drop_take buf b0 n hb) _ _ hk8,
          getD_drop_take buf b0 n _ (by omega)]
        have hq : b0 + (p / 8 - b0) = p / 8 := by omega
        rw [hq]
    · rw [if_neg hz1, if_neg hz2]
      have hcond : ¬ (off ≤ p ∧ p < off + w) := by omega
      rw [if_neg hcond]

theorem readBits_eq (buf : List Nat) (off w : Nat) :
    readBits buf off w =
      (readRunLE ((buf.drop (off / 8)).take (numBytes (off % 8) w)) >>> (off % 8)) &&&
        (2 ^ w - 1) := rfl

theorem testBit_readBits (buf : List Nat) (off w i : Nat) (hb : IsBytes buf) :
    (readBits buf off w).testBit i = (decide (i < w) && bufBit buf (off + i)) := by
  rw [readBits_eq]
  simp only [Nat.testBit_and, Nat.testBit_shiftRight, Nat.testBit_two_pow_sub_one]
  by_cases hi : i < w
  · simp only [hi, decide_True, Bool.and_true, Bool.true_and]
    have hsn : off % 8 + w ≤ 8 * numBytes (off % 8) w := by
      unfold numBytes
      omega
    have hjn : (off % 8 + i) / 8 < numBytes (off % 8) w := by omega
    have hk8 : (off % 8 + i) % 8 < 8 := Nat.mod_lt _ (by norm_num)
    have hsi : off % 8 + i = 8 * ((off % 8 + i) / 8) + (off % 8 + i) % 8 :=
      (Nat.div_add_mod _ 8).symm
    rw [hsi, testBit_readRunLE _ (isBytes_drop_take buf (off / 8) _ hb) _ _ hk8,
      getD_drop_take buf (off / 8) (numBytes (off % 8) w) _ hjn]
    unfold bufBit
    have h1 : off / 8 + (off % 8 + i) / 8 = (off + i) / 8 := by omega
    have h2 : (off % 8 + i) % 8 = (off + i) % 8 := by omega
    rw [h1, h2]
  · simp [hi]

theorem readBits_writeBits (buf : List Nat) (off w : Nat) (v : Int)
    (hb : IsBytes buf) (hw : 1 ≤ w)
    (hlen : off / 8 + numBytes (off % 8) w ≤ buf.length) :
    readBits (writeBits buf off w v) off w = (v % ((2 : Int) ^ w)).toNat := by
  have hbw := isBytes_writeBits buf off w v hb
  apply Nat.eq_of_testBit_eq
  intro i
  rw [testBit_readBits _ _ _ _ hbw]
  have hvm_lt : (v % ((2 : Int) ^ w)).toNat < 2 ^ w := by
    have h2 : (0 : Int) < 2 ^ w := by positivity
    have e1 : 0 ≤ v % (2 : Int) ^ w := Int.emod_nonneg v (ne_of_gt h2)
    have e2 : v % (2 : Int) ^ w < 2 ^ w := Int.emod_lt_of_pos v h2
    have hcast : ((2 : Int) ^ w) = ((2 ^ w : Nat) : Int) := by push_cast; ring
    rw [hcast] at e1 e2
    omega
  by_cases hi : i < w
  · rw [bufBit_writeBits buf off w v (off + i) hb hw hlen]
    have hcond : off ≤ off + i ∧ off + i < off + w := ⟨by omega, by omega⟩
    rw [if_pos hcond]
    simp [hi, Nat.add_sub_cancel_left]
  · have hhi : ((v % ((2 : Int) ^ w)).toNat).testBit i = false :=
      Nat.testBit_lt_two_pow
        (lt_of_lt_of_le hvm_lt (Nat.pow_le_pow_right (by norm_num) (by omega)))
    simp [hi, hhi]

theorem testBit_top (x w : Nat) (hw : 1 ≤ w) (hge : 2 ^ (w - 1) ≤ x) (hlt : x < 2 ^ w) :
    x.testBit (w - 1) = true := by
  rw [Nat.testBit_to_div_mod]
  have hpow : 2 ^ w = 2 ^ (w - 1) * 2 := by
    rw [← pow_succ]
    congr 1
    omega
  have hdiv : x / 2 ^ (w - 1) = 1 := Nat.div_eq_of_lt_le (by omega) (by omega)
  simp [hdiv]

theorem decodeValue_encode (w : Nat) (signed : Bool) (v : Int) (hw : 1 ≤ w)
    (hrep : Representable w signed v) :
    decodeValue ((v % ((2 : Int) ^ w)).toNat) w signed = v := by
  cases signed with
  | false =>
    simp only [Representable, if_false, Bool.false_eq_true] at hrep
    obtain ⟨h0, h1⟩ := hrep
    rw [decodeValue]
    simp only [Bool.false_eq_true, if_false]
    rw [Int.emod_eq_of_lt h0 h1, Int.toNat_of_nonneg h0]
  | true =>
    simp only [Representable, if_true] at hrep
    obtain ⟨h0, h1⟩ := hrep
    rw [decodeValue]
    simp only [if_true]
    have hpow : (2 : Int) ^ w = 2 ^ (w - 1) * 2 := by
      rw [← pow_succ]
      congr 1
      omega
    have hApos : (0 : Int) < 2 ^ (w - 1) := by positivity
    have hcA : ((2 : Int) ^ (w - 1)) = ((2 ^ (w - 1) : Nat) : Int) := by push_cast; ring
    have hcW : ((2 : Int) ^ w) = ((2 ^ w : Nat) : Int) := by push_cast; ring
    by_cases hv : 0 ≤ v
    · have hlt : v < (2 : Int) ^ w := by
        rw [hpow]
        linarith
      rw [Int.emod_eq_of_lt hv hlt]
      unfold signExtend
      have hfalse : (v.toNat).testBit (w - 1) = false := by
        apply Nat.testBit_lt_two_pow
        rw [hcA] at h1
        omega
      rw [hfalse]
      simp [Int.toNat_of_nonneg hv]
    · push_neg at hv
      have h0a : (0 : Int) ≤ v + 2 ^ w := by
        rw [hpow]
        linarith
      have h1a : v + 2 ^ w < 2 ^ w := by linarith
      have hemod : v % (2 : Int) ^ w = v + 2 ^ w := by
        have e : (v + 2 ^ w * 1) % 2 ^ w = v % 2 ^ w :=
          Int.add_mul_emod_self_left v (2 ^ w) 1
        simp only [mul_one] at e
        rw [← e, Int.emod_eq_of_lt h0a h1a]
      rw [hemod]
      unfold signExtend
      have hge : (2 : Int) ^ (w - 1) ≤ v + 2 ^ w := by
        rw [hpow]
        linarith
      have htrue : ((v + 2 ^ w).toNat).testBit (w - 1) = true := by
        apply testBit_top _ _ hw
        · rw [hcA] at hge
          omega
        · rw [hcW] at h1a
          omega
      rw [htrue]
      simp only [if_true]
      rw [Int.toNat_of_nonneg h0a]
      ring

theorem encodeValue_lt (w : Nat) (v : Int) : encodeValue w v < 2 ^ w := by
  unfold encodeValue
  have h2 : (0 : Int) < 2 ^ w := by positivity
  have e1 : 0 ≤ v % (2 : Int) ^ w := Int.emod_nonneg v (ne_of_gt h2)
  have e2 : v % (2 : Int) ^ w < 2 ^ w := Int.emod_lt_of_pos v h2
  have hcast : ((2 : Int) ^ w) = ((2 ^ w : Nat) : Int) := by push_cast; ring
  rw [hcast] at e1 e2
  omega

theorem addItem_payload_length (m : MultiVector) (t s : Nat) :
    (m.addItem t s).payload.length = m.payload.length + (1 + s) := by
  simp [MultiVector.addItem]
  omega

theorem addItem_index (m : MultiVector) (t s : Nat) :
    (m.addItem t s).index = m.index := rfl

theorem addItem_positions (m : MultiVector) (t s : Nat) :
    (m.addItem t s).positions = m.positions := rfl

theorem addItems_payload_length :
    ∀ (items : List (Nat × Nat)) (m : MultiVector),
      (m.addItems items).payload.length = m.payload.length + encodedLength items := by
  intro items
  induction items with
  | nil =>
    intro m
    simp [MultiVector.addItems, encodedLength]
  | cons it rest ih =>
    intro m
    rw [MultiVector.addItems, List.foldl_cons]
    have hrec := ih (m.addItem it.1 it.2)
    rw [MultiVector.addItems] at hrec
    rw [hrec, addItem_payload_length]
    simp [encodedLength]
    omega

theorem addItems_index :
    ∀ (items : List (Nat × Nat)) (m : MultiVector), (m.addItems items).index = m.index := by
  intro items
  induction items with
  | nil =>
    intro m
    rfl
  | cons it rest ih =>
    intro m
    rw [MultiVector.addItems, List.foldl_cons]
    have hrec := ih (m.addItem it.1 it.2)
    rw [MultiVector.addItems] at hrec
    rw [hrec, addItem_index]

theorem addItems_positions :
    ∀ (items : List (Nat × Nat)) (m : MultiVector),
      (m.addItems items).positions = m.positions := by
  intro items
  induction items with
  | nil =>
    intro m
    rfl
  | cons it rest ih =>
    intro m
    rw [MultiVector.addItems, List.foldl_cons]
    have hrec := ih (m.addItem it.1 it.2)
    rw [MultiVector.addItems] at hrec
    rw [hrec, addItem_positions]

theorem finishItem_ok (wd : Nat) (name : String) (m m2 : MultiVector)
    (h : m.finishItem wd name = Except.ok m2) :
    m2 = { m with index := m.index ++ [m.payload.length],
                  positions := m.positions + 1 } := by
  rw [MultiVector.finishItem] at h
  by_cases hc : 2 ^ wd - 1 < m.payload.length
  · rw [if_pos hc] at h
    exact Except.noConfusion h
  · rw [if_neg hc] at h
    exact (Except.ok.inj h).symm

theorem totalLength_append (a b : List (List (Nat × Nat))) :
    totalLength (a ++ b) = totalLength a + totalLength b := by
  simp [totalLength]

theorem totalLength_take_succ (l : List (List (Nat × Nat))) (i : Nat) (h : i < l.length) :
    totalLength (l.take (i + 1)) =
      totalLength (l.take i) + encodedLength (l.get ⟨i, h⟩) := by
  have ht : l.take (i + 1) = l.take i ++ [l.get ⟨i, h⟩] := by
    rw [List.take_succ, List.getElem?_eq_getElem h]
    rfl
  rw [ht, totalLength_append]
  simp [totalLength]

theorem mvBuild_aux (wd : Nat) (name : String) :
    ∀ (scripts done : List (List (Nat × Nat))) (m0 m : MultiVector),
      m0.payload.length = totalLength done →
      m0.positions = done.length →
      m0.index = (List.range (done.length + 1)).map (fun i => totalLength (done.take i)) →
      List.foldlM (MultiVector.buildPos wd name) m0 scripts = Except.ok m →
      m.payload.length = totalLength (done ++ scripts) ∧
      m.positions = (done ++ scripts).length ∧
      m.index = (List.range ((done ++ scripts).length + 1)).map
        (fun i => totalLength ((done ++ scripts).take i)) := by
  intro scripts
  induction scripts with
  | nil =>
    intro done m0 m h1 h2 h3 hb
    rw [List.foldlM_nil] at hb
    have hm : m0 = m := Except.ok.inj hb
    subst hm
    simpa [h1, h2] using h3
  | cons s rest ih =>
    intro done m0 m h1 h2 h3 hb
    rw [List.foldlM_cons] at hb
    cases hstep : MultiVector.buildPos wd name m0 s with
    | error e =>
      rw [hstep] at hb
      exact Except.noConfusion hb
    | ok m1 =>
      rw [hstep] at hb
      replace hb : List.foldlM (MultiVector.buildPos wd name) m1 rest = Except.ok m := hb
      rw [MultiVector.buildPos] at hstep
      have hm1 := finishItem_ok wd name _ _ hstep
      have hp1 : m1.payload.length = totalLength (done ++ [s]) := by
        rw [hm1]
        simp only [addItems_payload_length, totalLength_append, h1]
        simp [totalLength]
      have hq1 : m1.positions = (done ++ [s]).length := by
        rw [hm1]
        simp [addItems_positions, h2]
      have hi1 : m1.index = (List.range ((done ++ [s]).length + 1)).map
          (fun i => totalLength ((done ++ [s]).take i)) := by
        rw [hm1]
        simp only [addItems_index, addItems_payload_length, h1, h3]
        have hlen2 : (done ++ [s]).length = done.length + 1 := by simp
        rw [hlen2]
        conv_rhs => rw [List.range_succ]
        rw [List.map_append]
        congr 1
        · apply List.map_congr_left
          intro a ha
          have halt : a ≤ done.length := by
            have := List.mem_range.mp ha
            omega
          congr 1
          exact (List.take_append_of_le_length halt).symm
        · simp only [List.map_cons, List.map_nil]
          have htake : (done ++ [s]).take (done.length + 1) = done ++ [s] := by
            apply List.take_of_length_le
            simp
          rw [htake, totalLength_append]
          simp [totalLength]
      have := ih (done ++ [s]) m1 m hp1 hq1 hi1 hb
      simpa using this

theorem getD_range_map (f : Nat → Nat) (n i : Nat) (h : i < n) :
    (((List.range n).map f).getD i 0) = f i := by
  rw [List.getD_eq_getElem?_getD, List.getElem?_map, List.getElem?_range h]
  rfl

theorem codec_run_le (A S off w : Nat) (hoffw : off + w ≤ 8 * S) :
    (8 * A + off) / 8 + numBytes ((8 * A + off) % 8) w ≤ A + S := by
  unfold numBytes
  omega

theorem setLast_fits (S : Nat) (v : ExternalVector) (fw : FieldWrite)
    (hwf : EVOK S v) (hlen : 1 ≤ v.len) (hr : fw.off + fw.width ≤ 8 * S) :
    (8 * ((v.len - 1) * v.size) + fw.off) / 8 +
      numBytes ((8 * ((v.len - 1) * v.size) + fw.off) % 8) fw.width ≤ v.data.length := by
  obtain ⟨hsize, hdl, hbytes⟩ := hwf
  have h1 := codec_run_le ((v.len - 1) * S) S fw.off fw.width hr
  have h2 : (v.len - 1) * S + S = v.len * S := by
    have h3 : v.len - 1 + 1 = v.len := by omega
    calc (v.len - 1) * S + S = (v.len - 1 + 1) * S := by ring
      _ = v.len * S := by rw [h3]
  rw [hsize, hdl]
  omega

theorem setLast_wf (S : Nat) (v : ExternalVector) (fw : FieldWrite)
    (hwf : EVOK S v) (hlen : 1 ≤ v.len) (hr : fw.off + fw.width ≤ 8 * S) :
    EVOK S (v.setLast fw) := by
  have hfits := setLast_fits S v fw hwf hlen hr
  obtain ⟨hsize, hdl, hbytes⟩ := hwf
  refine ⟨hsize, ?_, isBytes_writeBits _ _ _ _ hbytes⟩
  show (writeBits v.data (8 * ((v.len - 1) * v.size) + fw.off) fw.width fw.value).length =
    v.len * S
  rw [writeBits_length _ _ _ _ hfits]
  exact hdl

theorem bufBit_setLast (S : Nat) (v : ExternalVector) (fw : FieldWrite) (p : Nat)
    (hwf : EVOK S v) (hlen : 1 ≤ v.len) (hw : 1 ≤ fw.width)
    (hr : fw.off + fw.width ≤ 8 * S) :
    bufBit (v.setLast fw).data p =
      if 8 * ((v.len - 1) * S) + fw.off ≤ p ∧
          p < 8 * ((v.len - 1) * S) + fw.off + fw.width then
        (encodeValue fw.width fw.value).testBit (p - (8 * ((v.len - 1) * S) + fw.off))
      else bufBit v.data p := by
  have hfits := setLast_fits S v fw hwf hlen hr
  obtain ⟨hsize, hdl, hbytes⟩ := hwf
  show bufBit (writeBits v.data (8 * ((v.len - 1) * v.size) + fw.off) fw.width fw.value) p = _
  rw [bufBit_writeBits v.data _ fw.width fw.value p hbytes hw hfits, hsize]
  rfl

theorem fill_spec (S : Nat) :
    ∀ (s : List FieldWrite) (v : ExternalVector),
      EVOK S v → 1 ≤ v.len →
      (∀ fw ∈ s, 1 ≤ fw.width ∧ fw.off + fw.width ≤ 8 * S) →
      ScriptDisjoint s →
      EVOK S (v.fill s) ∧ (v.fill s).len = v.len ∧
      (∀ p, (∀ fw ∈ s, p < 8 * ((v.len - 1) * S) + fw.off ∨
              8 * ((v.len - 1) * S) + fw.off + fw.width ≤ p) →
        bufBit (v.fill s).data p = bufBit v.data p) ∧
      (∀ fw ∈ s, ∀ j, j < fw.width →
        bufBit (v.fill s).data (8 * ((v.len - 1) * S) + fw.off + j) =
          (encodeValue fw.width fw.value).testBit j) := by
  intro s
  induction s with
  | nil =>
    intro v hwf hlen hok hdisj
    refine ⟨hwf, rfl, fun p hp => rfl, fun fw hfw => absurd hfw (List.not_mem_nil fw)⟩
  | cons a rest ih =>
    intro v hwf hlen hok hdisj
    have hfill : v.fill (a :: rest) = (v.setLast a).fill rest := by
      rw [ExternalVector.fill, List.foldl_cons]
      rfl
    have hoka := hok a (List.mem_cons_self _ _)
    have hwfa : EVOK S (v.setLast a) := setLast_wf S v a hwf hlen hoka.2
    have hlena : (v.setLast a).len = v.len := rfl
    obtain ⟨hdisj_a, hdisj_rest⟩ := List.pairwise_cons.mp hdisj
    have ihres := ih (v.setLast a) hwfa (by rw [hlena]; exact hlen)
      (fun fw hfw => hok fw (List.mem_cons_of_mem _ hfw)) hdisj_rest
    obtain ⟨ih1, ih2, ih3, ih4⟩ := ihres
    refine ⟨by rw [hfill]; exact ih1, by rw [hfill, ih2]; exact hlena, ?_, ?_⟩
    · intro p hp
      rw [hfill, ih3 p (fun fw hfw => hp fw (List.mem_cons_of_mem _ hfw)),
        bufBit_setLast S v a p hwf hlen hoka.1 hoka.2,
        if_neg (by have := hp a (List.mem_cons_self _ _); omega)]
    · intro fw hfw j hj
      rcases List.mem_cons.mp hfw with heq | hfwrest
      · subst heq
        rw [hfill]
        have hcond : ∀ g ∈ rest,
            8 * ((v.len - 1) * S) + fw.off + j <
              8 * (((v.setLast fw).len - 1) * S) + g.off ∨
            8 * (((v.setLast fw).len - 1) * S) + g.off + g.width ≤
              8 * ((v.len - 1) * S) + fw.off + j := by
          intro g hg
          have hd := hdisj_a g hg
          unfold rangesDisjoint at hd
          rw [hlena]
          omega
        rw [ih3 (8 * ((v.len - 1) * S) + fw.off + j) hcond]
        rw [bufBit_setLast S v fw _ hwf hlen hoka.1 hoka.2,
          if_pos (by omega)]
        congr 1
        omega
      · rw [hfill]
        exact ih4 fw hfwrest j hj

theorem grow_wf (S : Nat) (v : ExternalVector) (hwf : EVOK S v) :
    EVOK S v.grow := by
  obtain ⟨hsize, hdl, hbytes⟩ := hwf
  refine ⟨hsize, ?_, ?_⟩
  · show (v.data ++ List.replicate v.size 0).length = (v.len + 1) * S
    rw [List.length_append, List.length_replicate, hdl, hsize]
    ring
  · intro b hb
    rcases List.mem_append.mp hb with h | h
    · exact hbytes b h
    · have := List.eq_of_mem_replicate h
      omega

theorem bufBit_grow_lower (v : ExternalVector) (p : Nat) (hp : p / 8 < v.data.length) :
    bufBit v.grow.data p = bufBit v.data p := by
  show bufBit (v.data ++ List.replicate v.size 0) p = bufBit v.data p
  unfold bufBit
  rw [List.getD_eq_getElem?_getD, List.getD_eq_getElem?_getD,
    List.getElem?_append_left hp]

theorem evBuild_aux (S : Nat) :
    ∀ (scripts done : List (List FieldWrite)) (v : ExternalVector),
      (∀ s ∈ scripts, ScriptOK S s ∧ ScriptDisjoint s) →
      (∀ s ∈ done, ScriptOK S s) →
      EVOK S v → v.len = done.length → GoodData S done v.data →
      EVOK S (scripts.foldl ExternalVector.pushElem v) ∧
      (scripts.foldl ExternalVector.pushElem v).len = done.length + scripts.length ∧
      GoodData S (done ++ scripts) (scripts.foldl ExternalVector.pushElem v).data := by
  intro scripts
  induction scripts with
  | nil =>
    intro done v hok hdone hwf hlen hgood
    rw [List.foldl_nil, List.append_nil]
    exact ⟨hwf, by simpa using hlen, hgood⟩
  | cons s rest ih =>
    intro done v hok hdone hwf hlen hgood
    rw [List.foldl_cons]
    have hoks := hok s (List.mem_cons_self _ _)
    have hgwf : EVOK S v.grow := grow_wf S v hwf
    have hglen : v.grow.len = done.length + 1 := by
      show v.len + 1 = done.length + 1
      omega
    have hsok : ∀ fw ∈ s, 1 ≤ fw.width ∧ fw.off + fw.width ≤ 8 * S := by
      intro fw hfw
      have := hoks.1 fw hfw
      exact ⟨this.1, this.2.2.1⟩
    have hfillspec := fill_spec S s v.grow hgwf (by omega) hsok hoks.2
    obtain ⟨hf1, hf2, hf3, hf4⟩ := hfillspec
    have hv1len : (v.grow.fill s).len = done.length + 1 := by rw [hf2, hglen]
    have hbase : v.grow.len - 1 = done.length := by omega
    have hvdl : v.data.length = done.length * S := by
      obtain ⟨hsize, hdl, hbytes⟩ := hwf
      rw [hdl, hlen]
    have hgood1 : GoodData S (done ++ [s]) (v.grow.fill s).data := by
      intro i hi fw hfw j hj
      have hilen : i < done.length + 1 := by simpa using hi
      by_cases hio : i < done.length
      · -- an element finished before this grow: the new writes are all beyond it
        have hget : (done ++ [s]).get ⟨i, hi⟩ = done.get ⟨i, hio⟩ :=
          List.get_append_left done [s] hio
        rw [hget] at hfw
        have hfwok := hdone (done.get ⟨i, hio⟩) (List.get_mem done _ _) fw hfw
        have hplt : 8 * (i * S) + fw.off + j < 8 * (done.length * S) := by
          have h1 : 8 * (i * S) + fw.off + j < 8 * (i * S) + 8 * S := by omega
          have h2 : i * S + S ≤ done.length * S := by
            have h3 : i + 1 ≤ done.length := by omega
            calc i * S + S = (i + 1) * S := by ring
              _ ≤ done.length * S := Nat.mul_le_mul_right S h3
          omega
        rw [hf3 (8 * (i * S) + fw.off + j) ?_]
        · rw [bufBit_grow_lower v _ (by omega)]
          exact hgood i hio fw hfw j hj
        · intro g hg
          left
          rw [hbase]
          omega
      · -- the element grown in this step
        have hieq : i = done.length := by omega
        subst hieq
        have hget : (done ++ [s]).get ⟨done.length, hi⟩ = s := by
          rw [List.get_eq_getElem,
            List.getElem_append_right (by omega : done.length ≤ done.length)]
          simp
        rw [hget] at hfw
        have := hf4 fw hfw j hj
        rw [hbase] at this
        exact this
    have hdone1 : ∀ t ∈ done ++ [s], ScriptOK S t := by
      intro t ht
      rcases List.mem_append.mp ht with h | h
      · exact hdone t h
      · have : t = s := by simpa using h
        rw [this]
        exact hoks.1
    have hok1 : ∀ t ∈ rest, ScriptOK S t ∧ ScriptDisjoint t :=
      fun t ht => hok t (List.mem_cons_of_mem _ ht)
    have hv1len2 : (v.grow.fill s).len = (done ++ [s]).length := by
      rw [hv1len]
      simp
    have hres := ih (done ++ [s]) (v.grow.fill s) hok1 hdone1 hf1 hv1len2 hgood1
    have hpe : v.pushElem s = v.grow.fill s := rfl
    rw [hpe]
    have hla : (done ++ [s]) ++ rest = done ++ s :: rest := by simp
    rw [hla] at hres
    obtain ⟨hr1, hr2, hr3⟩ := hres
    refine ⟨hr1, ?_, hr3⟩
    rw [hr2]
    simp
    omega

theorem readBits_of_goodData (S : Nat) (data : List Nat) (i off w : Nat) (value : Int)
    (hb : IsBytes data)
    (hbits : ∀ j, j < w →
      bufBit data (8 * (i * S) + off + j) = (encodeValue w value).testBit j) :
    readBits data (8 * (i * S) + off) w = encodeValue w value := by
  apply Nat.eq_of_testBit_eq
  intro j
  rw [testBit_readBits _ _ _ _ hb]
  by_cases hj : j < w
  · rw [hbits j hj]
    simp [hj]
  · have hfalse : (encodeValue w value).testBit j = false :=
      Nat.testBit_lt_two_pow (lt_of_lt_of_le (encodeValue_lt w value)
        (Nat.pow_le_pow_right (by norm_num) (by omega)))
    simp [hj, hfalse]

end Flatdata

/-! ### Claim theorems -/

/-- Claim C2: for every bit width in 1..64, every bit offset (hence every
shift `offset % 8` in 0..7), both signed and unsigned interpretations, and
every value representable in that width, reading a field from a buffer
immediately after writing the value into the same offset and width position
returns exactly the value (bit-codec round-trip law). -/
theorem c2_bitcodec_roundtrip (buf : List Nat) (off w : Nat) (signed : Bool) (v : Int)
    (hb : Flatdata.IsBytes buf) (hw1 : 1 ≤ w) (hw64 : w ≤ 64)
    (hlen : off / 8 + Flatdata.numBytes (off % 8) w ≤ buf.length)
    (hrep : Flatdata.Representable w signed v) :
    Flatdata.readValue (Flatdata.writeBits buf off w v) off w signed = v := by
  rw [Flatdata.readValue, Flatdata.readBits_writeBits buf off w v hb hw1 hlen]
  exact Flatdata.decodeValue_encode w signed v hw1 hrep

/-- Witness for C2: signed 7-bit field at bit offset 3 over an all-ones
buffer, value -51. -/
theorem c2_bitcodec_roundtrip_witness :
    Flatdata.readValue (Flatdata.writeBits [255, 255] 3 7 (-51)) 3 7 true = -51 :=
  c2_bitcodec_roundtrip [255, 255] 3 7 true (-51) (by decide) (by decide) (by decide)
    (by decide) (by decide)

/-- Claim C3: for every buffer, bit offset, bit width in 1..64 and value, the
bit-codec write leaves every bit outside `[offset, offset + width)` equal to
its value before the write. -/
theorem c3_bitcodec_write_frame (buf : List Nat) (off w : Nat) (v : Int) (p : Nat)
    (hb : Flatdata.IsBytes buf) (hw1 : 1 ≤ w) (hw64 : w ≤ 64)
    (hlen : off / 8 + Flatdata.numBytes (off % 8) w ≤ buf.length)
    (hp : p < off ∨ off + w ≤ p) :
    Flatdata.bufBit (Flatdata.writeBits buf off w v) p = Flatdata.bufBit buf p := by
  rw [Flatdata.bufBit_writeBits buf off w v p hb hw1 hlen]
  have hcond : ¬ (off ≤ p ∧ p < off + w) := by omega
  rw [if_neg hcond]

/-- Witness for C3: the bit just below a 5-bit field at offset 3 is
untouched. -/
theorem c3_bitcodec_write_frame_witness :
    Flatdata.bufBit (Flatdata.writeBits [255, 255] 3 5 0) 2 = Flatdata.bufBit [255, 255] 2 :=
  c3_bitcodec_write_frame [255, 255] 3 5 0 2 (by decide) (by decide) (by decide)
    (by decide) (by decide)

/-- Claim C9 counterexample: the error enum contains the hidden
`__Nonexhaustive` variant (error.rs lines 47-48), which is none of the eight
listed kinds, so the type does not have exactly those kinds. -/
theorem c9_error_kinds_counterexample :
    ¬ Flatdata.IsListedKind Flatdata.ResourceStorageError.__Nonexhaustive := by
  intro h
  rcases h with ⟨e, n, h⟩ | ⟨u, h⟩ | ⟨n, h⟩ | h | ⟨n, d, h⟩ | h | ⟨n, s, h⟩ | h <;>
    exact Flatdata.ResourceStorageError.noConfusion h

/-- Claim C9 (amended): the storage error type has exactly the eight listed
kinds plus the hidden `__Nonexhaustive` marker variant, and `from_io_error`
constructs exactly the `Io` variant holding the error and the name. -/
theorem c9_error_kinds_amended :
    (∀ e : Flatdata.ResourceStorageError,
        Flatdata.IsListedKind e ∨ e = Flatdata.ResourceStorageError.__Nonexhaustive) ∧
    (∀ (err : Flatdata.IoError) (name : String),
        Flatdata.ResourceStorageError.from_io_error err name =
          Flatdata.ResourceStorageError.Io err name) := by
  constructor
  · intro e
    cases e with
    | Io err name => exact Or.inl (Or.inl ⟨err, name, rfl⟩)
    | Utf8Error u => exact Or.inl (Or.inr (Or.inl ⟨u, rfl⟩))
    | MissingSchema name => exact Or.inl (Or.inr (Or.inr (Or.inl ⟨name, rfl⟩)))
    | MissingData => exact Or.inl (Or.inr (Or.inr (Or.inr (Or.inl rfl))))
    | WrongSignature name diff =>
        exact Or.inl (Or.inr (Or.inr (Or.inr (Or.inr (Or.inl ⟨name, diff, rfl⟩)))))
    | UnexpectedDataSize =>
        exact Or.inl (Or.inr (Or.inr (Or.inr (Or.inr (Or.inr (Or.inl rfl))))))
    | TooBig name size =>
        exact Or.inl (Or.inr (Or.inr (Or.inr (Or.inr (Or.inr (Or.inr (Or.inl ⟨name, size, rfl⟩)))))))
    | Missing =>
        exact Or.inl (Or.inr (Or.inr (Or.inr (Or.inr (Or.inr (Or.inr (Or.inr rfl)))))))
    | __Nonexhaustive => exact Or.inr rfl
  · intro err name
    rfl

set_option maxRecDepth 10000 in
/-- Claim C10: the expected schema of the multivector's index resource is
exactly `"index("` followed by the payload schema followed by `")"`, and the
archive declaration binds `vertices_data_index` with that schema to the
`vertices_data` payload resource. -/
theorem c10_index_schema :
    coappearances.schema.resources.VERTICES_DATA_INDEX =
      "index(" ++ coappearances.schema.resources.VERTICES_DATA ++ ")" ∧
    coappearances.Graph.vertices_data_member.name = "vertices_data" ∧
    coappearances.Graph.vertices_data_member.schemaText =
      coappearances.schema.resources.VERTICES_DATA ∧
    coappearances.Graph.vertices_data_member.index_name = "vertices_data_index" ∧
    coappearances.Graph.vertices_data_member.index_schema =
      "index(" ++ coappearances.Graph.vertices_data_member.schemaText ++ ")" :=
  ⟨rfl, rfl, rfl, rfl, rfl⟩

/-- Claim C6: `finish_item` fails with `TooBig` carrying the resource name and
the offending size whenever the payload offset exceeds the largest value
representable in the index bit width, and on success records the exact offset
(never wrapping or truncating it). -/
theorem c6_multivector_toobig (indexWidth : Nat) (name : String) (m : Flatdata.MultiVector) :
    (2 ^ indexWidth - 1 < m.payload.length →
      Flatdata.MultiVector.finishItem indexWidth name m =
        Except.error (Flatdata.ResourceStorageError.TooBig name m.payload.length)) ∧
    (m.payload.length ≤ 2 ^ indexWidth - 1 →
      Flatdata.MultiVector.finishItem indexWidth name m =
        Except.ok { m with index := m.index ++ [m.payload.length],
                           positions := m.positions + 1 }) := by
  constructor
  · intro h
    rw [Flatdata.MultiVector.finishItem, if_pos h]
  · intro h
    rw [Flatdata.MultiVector.finishItem, if_neg (by omega)]

/-- Witness for C6: a 2-bit index budget overflows at payload length 4. -/
theorem c6_multivector_toobig_witness :
    Flatdata.MultiVector.finishItem 2 "vertices_data" ⟨[9, 9, 9, 9], [0], 0⟩ =
      Except.error (Flatdata.ResourceStorageError.TooBig "vertices_data" 4) :=
  (c6_multivector_toobig 2 "vertices_data" ⟨[9, 9, 9, 9], [0], 0⟩).1 (by decide)

/-- Claim C7: every appended item is one discriminant byte (the variant's
0-based position in the schema's declared order) followed by the variant's
fixed-size payload; for VerticesData the tags are Nickname 0, Description 1,
UnaryRelation 2, BinaryRelation 3, and one Nickname item (4-byte payload) at
position 0 yields index entries [0, 5]. -/
theorem c7_multivector_item_encoding :
    (∀ (m : Flatdata.MultiVector) (var : coappearances.VerticesDataVariant),
       (coappearances.addVariant m var).payload =
         m.payload ++ var.tag :: List.replicate var.byteSize 0) ∧
    coappearances.VerticesDataVariant.Nickname.tag = 0 ∧
    coappearances.VerticesDataVariant.Description.tag = 1 ∧
    coappearances.VerticesDataVariant.UnaryRelation.tag = 2 ∧
    coappearances.VerticesDataVariant.BinaryRelation.tag = 3 ∧
    coappearances.VerticesDataVariant.Nickname.byteSize = 4 ∧
    (Flatdata.MultiVector.finishItem 32 "vertices_data"
        (coappearances.addVariant Flatdata.MultiVector.create
          coappearances.VerticesDataVariant.Nickname)).map Flatdata.MultiVector.index =
      Except.ok [0, 5] :=
  ⟨fun _ _ => rfl, rfl, rfl, rfl, rfl, rfl, rfl⟩

/-- Claim C1: on a storage already containing the signature resource
`"Graph.archive"`, `GraphBuilder::new` fails with an `Io` error whose kind is
"already exists" tagged with the signature name, and performs no write: the
storage state is returned unmodified, so every resource is byte-for-byte
unchanged. -/
theorem c1_archive_already_exists (st : Flatdata.ResourceStorage)
    (h : Flatdata.storageHas st "Graph.archive" = true) :
    coappearances.GraphBuilder.new st =
      (Except.error (Flatdata.ResourceStorageError.Io
          { kind := Flatdata.IoErrorKind.alreadyExists, message := "Graph.archive" }
          "Graph.archive"),
        st) ∧
    ∀ name, Flatdata.storageLookup (coappearances.GraphBuilder.new st).2 name =
      Flatdata.storageLookup st name := by
  have hname : coappearances.GraphBuilder.NAME ++ ".archive" = "Graph.archive" := rfl
  have hnew : coappearances.GraphBuilder.new st =
      (Except.error (Flatdata.ResourceStorageError.Io
          { kind := Flatdata.IoErrorKind.alreadyExists, message := "Graph.archive" }
          "Graph.archive"),
        st) := by
    rw [coappearances.GraphBuilder.new]
    rw [hname, h]
    rfl
  refine ⟨hnew, fun name => ?_⟩
  rw [hnew]

/-- Witness for C1 on a one-resource storage that already holds the
signature. -/
theorem c1_archive_already_exists_witness :
    coappearances.GraphBuilder.new [("Graph.archive", ⟨"old", 0, []⟩)] =
      (Except.error (Flatdata.ResourceStorageError.Io
          { kind := Flatdata.IoErrorKind.alreadyExists, message := "Graph.archive" }
          "Graph.archive"),
        [("Graph.archive", ⟨"old", 0, []⟩)]) :=
  (c1_archive_already_exists [("Graph.archive", ⟨"old", 0, []⟩)] (by decide)).1

/-- Claim C8: on a storage without the signature resource, `GraphBuilder::new`
writes exactly one resource, named `"Graph.archive"`, with empty payload and
the full archive schema text, and returns a builder bound to the updated
storage. -/
theorem c8_archive_create (st : Flatdata.ResourceStorage)
    (h : Flatdata.storageHas st "Graph.archive" = false) :
    ∃ r : Flatdata.Resource,
      coappearances.GraphBuilder.new st =
        (Except.ok { storage := ("Graph.archive", r) :: st }, ("Graph.archive", r) :: st) ∧
      r.schema = coappearances.schema.resources.GRAPH ∧
      r.readData = [] ∧
      Flatdata.storageLookup (("Graph.archive", r) :: st) "Graph.archive" = some r ∧
      ∀ name, name ≠ "Graph.archive" →
        Flatdata.storageLookup (("Graph.archive", r) :: st) name =
          Flatdata.storageLookup st name := by
  refine ⟨⟨coappearances.schema.resources.GRAPH, 0, List.replicate 8 0⟩, ?_, rfl, rfl, ?_, ?_⟩
  · have hname : coappearances.GraphBuilder.NAME ++ ".archive" = "Graph.archive" := rfl
    rw [coappearances.GraphBuilder.new, hname, h]
    rfl
  · simp [Flatdata.storageLookup, List.lookup]
  · intro name hne
    have hbeq : (name == "Graph.archive") = false := beq_eq_false_iff_ne.mpr hne
    simp [Flatdata.storageLookup, List.lookup, hbeq]

/-- Witness for C8 on the empty storage. -/
theorem c8_archive_create_witness :
    ∃ r : Flatdata.Resource,
      coappearances.GraphBuilder.new [] =
        (Except.ok { storage := [("Graph.archive", r)] }, [("Graph.archive", r)]) ∧
      r.schema = coappearances.schema.resources.GRAPH ∧
      r.readData = [] ∧
      Flatdata.storageLookup [("Graph.archive", r)] "Graph.archive" = some r ∧
      ∀ name, name ≠ "Graph.archive" →
        Flatdata.storageLookup [("Graph.archive", r)] name =
          Flatdata.storageLookup ([] : Flatdata.ResourceStorage) name :=
  c8_archive_create [] (by decide)

/-- Claim C5: for every MultiVector construction with N `finish_item()` calls,
the index sequence has exactly N+1 entries, starts at 0, ends at the total
payload byte length, is non-decreasing, and successive differences equal the
total encoded byte length of the items at each logical position. -/
theorem c5_multivector_index_invariants (wd : Nat) (name : String)
    (scripts : List (List (Nat × Nat))) (m : Flatdata.MultiVector)
    (hbuild : Flatdata.MultiVector.build wd name scripts = Except.ok m) :
    m.index.length = scripts.length + 1 ∧
    m.index.getD 0 0 = 0 ∧
    m.index.getD scripts.length 0 = m.payload.length ∧
    (∀ i j, i ≤ j → j ≤ scripts.length → m.index.getD i 0 ≤ m.index.getD j 0) ∧
    (∀ i, (hi : i < scripts.length) →
      m.index.getD (i + 1) 0 - m.index.getD i 0 =
        Flatdata.encodedLength (scripts.get ⟨i, hi⟩)) := by
  have hcreate1 : Flatdata.MultiVector.create.payload.length =
      Flatdata.totalLength ([] : List (List (Nat × Nat))) := rfl
  have hcreate2 : Flatdata.MultiVector.create.positions =
      List.length ([] : List (List (Nat × Nat))) := rfl
  have hcreate3 : Flatdata.MultiVector.create.index =
      (List.range (List.length ([] : List (List (Nat × Nat))) + 1)).map
        (fun i => Flatdata.totalLength (List.take i ([] : List (List (Nat × Nat))))) := rfl
  have hmain := Flatdata.mvBuild_aux wd name scripts [] Flatdata.MultiVector.create m
    hcreate1 hcreate2 hcreate3 hbuild
  rw [List.nil_append] at hmain
  obtain ⟨hpay, hpos, hidx⟩ := hmain
  set N := scripts.length with hN
  set f : Nat → Nat := fun i => Flatdata.totalLength (scripts.take i) with hf
  have hstep : ∀ i, f i ≤ f (i + 1) := by
    intro i
    show Flatdata.totalLength (scripts.take i) ≤ Flatdata.totalLength (scripts.take (i + 1))
    by_cases hi : i < N
    · rw [Flatdata.totalLength_take_succ scripts i (by omega)]
      omega
    · have h1 : scripts.take i = scripts := List.take_of_length_le (by omega)
      have h2 : scripts.take (i + 1) = scripts := List.take_of_length_le (by omega)
      rw [h1, h2]
  have hmono : Monotone f := monotone_nat_of_le_succ hstep
  refine ⟨?_, ?_, ?_, ?_, ?_⟩
  · rw [hidx]
    simp
  · rw [hidx, Flatdata.getD_range_map f (N + 1) 0 (by omega)]
    show Flatdata.totalLength (scripts.take 0) = 0
    simp [Flatdata.totalLength]
  · rw [hidx, Flatdata.getD_range_map f (N + 1) N (by omega), hpay]
    show Flatdata.totalLength (scripts.take N) = Flatdata.totalLength scripts
    rw [hN, List.take_length]
  · intro i j hij hj
    rw [hidx, Flatdata.getD_range_map f (N + 1) i (by omega),
      Flatdata.getD_range_map f (N + 1) j (by omega)]
    exact hmono hij
  · intro i hi
    rw [hidx, Flatdata.getD_range_map f (N + 1) (i + 1) (by omega),
      Flatdata.getD_range_map f (N + 1) i (by omega)]
    show Flatdata.totalLength (scripts.take (i + 1)) - Flatdata.totalLength (scripts.take i) =
      Flatdata.encodedLength (scripts.get ⟨i, hi⟩)
    rw [Flatdata.totalLength_take_succ scripts i hi]
    omega

/-- Witness for C5: two positions, one Nickname-sized item then an empty
position, giving index [0, 5, 5]. -/
theorem c5_multivector_index_invariants_witness :
    (⟨[0, 0, 0, 0, 0], [0, 5, 5], 2⟩ : Flatdata.MultiVector).index.length = 2 + 1 ∧
    (⟨[0, 0, 0, 0, 0], [0, 5, 5], 2⟩ : Flatdata.MultiVector).index.getD 0 0 = 0 ∧
    (⟨[0, 0, 0, 0, 0], [0, 5, 5], 2⟩ : Flatdata.MultiVector).index.getD 2 0 =
      (⟨[0, 0, 0, 0, 0], [0, 5, 5], 2⟩ : Flatdata.MultiVector).payload.length := by
  have h := c5_multivector_index_invariants 32 "vertices_data" [[(0, 4)], []]
    ⟨[0, 0, 0, 0, 0], [0, 5, 5], 2⟩ (by rfl)
  exact ⟨h.1, h.2.1, h.2.2.1⟩

/-- Claim C4: for every ExternalVector of element byte size S and every
sequence of N `grow()` calls each followed by field writes through the
returned view, then `close()`, the ArrayView read back from the written
resource has length exactly N, and for every i < N the fields of element i
equal exactly the values written through the view of the i-th `grow()`. -/
theorem c4_external_vector_roundtrip (S : Nat) (scripts : List (List Flatdata.FieldWrite))
    (st : Flatdata.ResourceStorage) (name schemaText : String)
    (hS : 0 < S)
    (hok : ∀ s ∈ scripts, Flatdata.ScriptOK S s)
    (hdisj : ∀ s ∈ scripts, Flatdata.ScriptDisjoint s) :
    ∃ r : Flatdata.Resource,
      Flatdata.storageLookup
          ((Flatdata.ExternalVector.build S scripts).close st name schemaText) name =
        some r ∧
      (Flatdata.ArrayView.mk S r.readData).len = scripts.length ∧
      ∀ i, (hi : i < scripts.length) → ∀ fw ∈ scripts.get ⟨i, hi⟩,
        (Flatdata.ArrayView.mk S r.readData).getField i fw.off fw.width fw.signed =
          fw.value := by
  have hinit : Flatdata.EVOK S (Flatdata.ExternalVector.create S) := by
    refine ⟨rfl, ?_, ?_⟩
    · show ([] : List Nat).length = 0 * S
      simp
    · intro b hb
      exact absurd hb (List.not_mem_nil b)
  have haux := Flatdata.evBuild_aux S scripts [] (Flatdata.ExternalVector.create S)
    (fun s hs => ⟨hok s hs, hdisj s hs⟩) (fun s hs => absurd hs (List.not_mem_nil s))
    hinit rfl (by intro i hi; simp at hi)
  rw [List.nil_append] at haux
  obtain ⟨hwfB, hlenB, hgoodB⟩ := haux
  have hbuild_eq : Flatdata.ExternalVector.build S scripts =
      scripts.foldl Flatdata.ExternalVector.pushElem (Flatdata.ExternalVector.create S) := rfl
  rw [← hbuild_eq] at hwfB hlenB hgoodB
  obtain ⟨hsizeB, hdlB, hbytesB⟩ := hwfB
  have hlenB2 : (Flatdata.ExternalVector.build S scripts).len = scripts.length := by
    rw [hlenB]
    simp
  set v := Flatdata.ExternalVector.build S scripts with hv
  have hreaddata : Flatdata.Resource.readData
      ⟨schemaText, v.data.length, v.data ++ List.replicate 8 0⟩ = v.data := by
    unfold Flatdata.Resource.readData
    exact List.take_left' rfl
  refine ⟨⟨schemaText, v.data.length, v.data ++ List.replicate 8 0⟩, ?_, ?_, ?_⟩
  · show Flatdata.storageLookup
        (Flatdata.storageWrite st name schemaText v.data) name = _
    simp [Flatdata.storageLookup, Flatdata.storageWrite, List.lookup]
  · show (Flatdata.ArrayView.mk S (Flatdata.Resource.readData
        ⟨schemaText, v.data.length, v.data ++ List.replicate 8 0⟩)).len = scripts.length
    rw [hreaddata]
    show v.data.length / S = scripts.length
    rw [hdlB, hlenB2]
    exact Nat.mul_div_cancel _ hS
  · intro i hi fw hfw
    have hfwok := hok (scripts.get ⟨i, hi⟩) (List.get_mem scripts _ _) fw hfw
    obtain ⟨hw1, hw64, hrange, hrep⟩ := hfwok
    show Flatdata.readValue (Flatdata.Resource.readData
        ⟨schemaText, v.data.length, v.data ++ List.replicate 8 0⟩)
        (8 * (i * S) + fw.off) fw.width fw.signed = fw.value
    rw [hreaddata]
    rw [Flatdata.readValue,
      Flatdata.readBits_of_goodData S v.data i fw.off fw.width fw.value hbytesB
        (fun j hj => hgoodB i hi fw hfw j hj)]
    exact Flatdata.decodeValue_encode fw.width fw.signed fw.value hw1 hrep

/-- Witness for C4: one element of size 4 with a single unsigned 32-bit field
write of value 5. -/
theorem c4_external_vector_roundtrip_witness :
    ∃ r : Flatdata.Resource,
      Flatdata.storageLookup
          ((Flatdata.ExternalVector.build 4
              [[{ off := 0, width := 32, signed := false, value := 5 }]]).close []
            "vertices" "schema") "vertices" = some r ∧
      (Flatdata.ArrayView.mk 4 r.readData).len = 1 ∧
      (Flatdata.ArrayView.mk 4 r.readData).getField 0 0 32 false = 5 := by
  obtain ⟨r, h1, h2, h3⟩ := c4_external_vector_roundtrip 4
    [[{ off := 0, width := 32, signed := false, value := 5 }]] [] "vertices" "schema"
    (by decide) (by decide) (by decide)
  refine ⟨r, h1, h2, ?_⟩
  have h4 := h3 0 (by decide) { off := 0, width := 32, signed := false, value := 5 }
    (by simp)
  simpa using h4
